import Mathlib

/-!
Verification development for the KindlePDF reflow pagination engine
(`paginateContent`, `findPageForOffset`, `isTitleText`, `setFontSize` in the
PDF handler module).  JavaScript strings are modelled as `List Char`,
JavaScript numbers as `ℚ` (all the arithmetic the engine performs on them is
exact at the relevant magnitudes), and the module-level mutable state as an
explicit record threaded through the operations.
-/

set_option maxRecDepth 10000

unseal Rat.add Rat.mul Rat.sub Rat.ofScientific Rat.inv

/-- A JavaScript string, modelled as its list of characters. -/
abbrev Str := List Char

/-- Whitespace recognised by `String.prototype.trim` (the characters that
actually occur in this engine's data). -/
def isWS (c : Char) : Bool :=
  c = ' ' || c = '\n' || c = '\t' || c = '\r'

/-- `s.trim()`: remove leading and trailing whitespace. -/
def jsTrim (s : Str) : Str :=
  ((s.dropWhile isWS).reverse.dropWhile isWS).reverse

/-- `fullText.split('\n\n')`: split at each non-overlapping occurrence of the
two-newline paragraph delimiter, scanning left to right.  `acc` is the piece
being accumulated, in reverse. -/
def splitNNAux : Str → Str → List Str
  | acc, [] => [acc.reverse]
  | acc, '\n' :: '\n' :: rest => acc.reverse :: splitNNAux [] rest
  | acc, c :: rest => splitNNAux (c :: acc) rest

/-- `fullText.split('\n\n')`. -/
def splitNN (s : Str) : List Str := splitNNAux [] s

/-- `text.replace(/\s+/g, ' ')`: collapse every maximal whitespace run to a
single space. -/
def collapseWS : Str → Str
  | [] => []
  | c :: rest =>
    let r := collapseWS rest
    if isWS c then
      match r with
      | ' ' :: _ => r
      | _ => ' ' :: r
    else c :: r

/-- Does `needle` occur in `s` starting at index `i`? -/
def occursAt (s needle : Str) (i : ℕ) : Bool :=
  (s.drop i).take needle.length = needle

/-- `s.lastIndexOf(needle, pos)`: the largest index `≤ pos` at which `needle`
occurs in `s`, or `-1` if there is none. -/
def lastIndexOf (s needle : Str) (pos : ℕ) : Int :=
  match (List.range (pos + 1)).reverse.find? (occursAt s needle) with
  | some i => (i : Int)
  | none => -1

/-- Character class of the regex `[a-zA-ZÀ-ÿ]` (the characters kept by
`text.replace(/[^a-zA-ZÀ-ÿ]/g, '')`). -/
def isLetterJS (c : Char) : Bool :=
  ('a' ≤ c && c ≤ 'z') || ('A' ≤ c && c ≤ 'Z') ||
    (Char.ofNat 0xC0 ≤ c && c ≤ Char.ofNat 0xFF)

/-- Character class of the regex `[A-ZÀ-Ý]` used to count uppercase letters. -/
def isUpperJS (c : Char) : Bool :=
  ('A' ≤ c && c ≤ 'Z') || (Char.ofNat 0xC0 ≤ c && c ≤ Char.ofNat 0xDD)

/-- `isTitleText` from the pagination engine: strip non-letters, require at
least 3 letters, and classify as a title when more than 70% of the letters are
uppercase and the original text has fewer than 100 characters. -/
def isTitleText (text : Str) : Bool :=
  let cleaned := text.filter isLetterJS
  if cleaned.length < 3 then false
  else
    let upperCount := (cleaned.filter isUpperJS).length
    decide ((upperCount : ℚ) / (cleaned.length : ℚ) > 0.7) && decide (text.length < 100)

/-- A paragraph produced by the aggregation pass: trimmed text, start offset
into the full text (the running `searchIndex`), and the trimmed length. -/
structure Para where
  text : Str
  start : ℕ
  len : ℕ
deriving DecidableEq, Repr

/-- A virtual page: its content strings and its `[start, end]` offset range.
The `end` field of the source is called `stop` here (`end` is a keyword). -/
structure VPage where
  content : List Str
  start : ℚ
  stop : ℚ
deriving DecidableEq, Repr

/-- `text.substring(0, q)` for a non-negative fractional index: JavaScript
truncates the index to an integer. -/
def jsSubstrTo (s : Str) (q : ℚ) : Str := s.take ⌊q⌋.toNat

/-- `text.substring(q)` for a non-negative fractional index. -/
def jsSubstrFrom (s : Str) (q : ℚ) : Str := s.drop ⌊q⌋.toNat

/-- One round of the `while (remaining.length > 0)` splitting loop for an
oversize paragraph (lines 185–210 of the handler), run on `fuel` steps.
Each step chooses `breakPoint = min(remaining.length, charsPerPage)`, prefers
the last `". "` after the 50%-of-budget mark, else the last space after that
mark, slices and trims the chunk, emits it as a single-paragraph page when
non-empty, and advances the split offset by the (possibly fractional)
`breakPoint`.  `breakPointOf` is the per-round break point (lines 186–195):
`min(remaining.length, charsPerPage)`, overridden by the last `". "` after
the 50%-of-budget mark (plus one), else by the last space after that mark. -/
def bp0Of (cpp : ℚ) (remaining : Str) : ℚ :=
  min ((remaining.length : ℕ) : ℚ) cpp

/-- The `sentenceEnd` of line 189: last `". "` at or before the break point. -/
def sentenceEndOf (cpp : ℚ) (remaining : Str) : ℤ :=
  lastIndexOf remaining ['.', ' '] ⌊bp0Of cpp remaining⌋.toNat

/-- The `wordBreak` of line 192: last space at or before the break point. -/
def wordBreakOf (cpp : ℚ) (remaining : Str) : ℤ :=
  lastIndexOf remaining [' '] ⌊bp0Of cpp remaining⌋.toNat

def breakPointOf (cpp : ℚ) (remaining : Str) : ℚ :=
  if bp0Of cpp remaining < ((remaining.length : ℕ) : ℚ) then
    if (sentenceEndOf cpp remaining : ℚ) > cpp * 0.5 then (sentenceEndOf cpp remaining : ℚ) + 1
    else
      if (wordBreakOf cpp remaining : ℚ) > cpp * 0.5 then (wordBreakOf cpp remaining : ℚ)
      else bp0Of cpp remaining
  else bp0Of cpp remaining

/-- The splitting loop itself, structured on an explicit fuel argument. -/
def splitChunksF : ℕ → ℚ → ℚ → Str → List VPage
  | 0, _, _, _ => []
  | fuel + 1, cpp, splitStart, remaining =>
    if remaining.length = 0 then []
    else
      let bp := breakPointOf cpp remaining
      let chunk := jsTrim (jsSubstrTo remaining bp)
      let here : List VPage :=
        if chunk ≠ [] then
          [⟨[chunk], splitStart, splitStart + (chunk.length : ℚ)⟩]
        else []
      here ++ splitChunksF fuel cpp (splitStart + bp) (jsTrim (jsSubstrFrom remaining bp))

/-- The oversize-paragraph split: the loop of lines 185–210, with enough fuel
to drain `remaining` (one character is consumed per step whenever the budget
is at least 1, which the engine's floor guarantees). -/
def splitChunks (cpp : ℚ) (splitStart : ℚ) (remaining : Str) : List VPage :=
  splitChunksF (remaining.length + 1) cpp splitStart remaining

/-- The accumulator state of the pagination loop: pages pushed so far, the
current page's content (`currentPageContent`), the offset at which the
current page began (`currentPageOffsetStart`, `-1` when unset), and the
running character count (`currentCharCount`). -/
structure PState where
  pages : List VPage
  content : List Str
  accStart : ℚ
  count : ℕ
deriving DecidableEq, Repr

/-- Line 140: when `currentPageOffsetStart` is unset (`-1`), set it to the
current paragraph's start. -/
def accStartInit (st : PState) (p : Para) : PState :=
  if st.accStart = -1 then { st with accStart := (p.start : ℚ) } else st

/-- Lines 145–154 (title-forces-break): if the paragraph is a Title and the
accumulator holds content, flush the accumulator as a page ending at the
paragraph's start minus one, and restart the accumulator at the title. -/
def titleBreak (st : PState) (p : Para) : PState :=
  if isTitleText p.text ∧ st.content ≠ [] then
    { pages := st.pages ++ [⟨st.content, st.accStart, (p.start : ℚ) - 1⟩],
      content := [], accStart := (p.start : ℚ), count := 0 }
  else st

/-- Lines 157–166 (capacity overflow): if adding this paragraph would exceed
the budget and the accumulator holds content, flush it the same way. -/
def overflowBreak (cpp : ℚ) (st : PState) (p : Para) : PState :=
  if ((st.count : ℚ) + (p.len : ℚ) > cpp) ∧ st.content ≠ [] then
    { pages := st.pages ++ [⟨st.content, st.accStart, (p.start : ℚ) - 1⟩],
      content := [], accStart := (p.start : ℚ), count := 0 }
  else st

/-- Lines 171–179: before splitting an oversize paragraph, flush any pending
accumulator content (without touching `currentPageOffsetStart`). -/
def flushBeforeSplit (st : PState) (p : Para) : PState :=
  if st.content ≠ [] then
    { st with
      pages := st.pages ++ [⟨st.content, st.accStart, (p.start : ℚ) - 1⟩],
      content := [], count := 0 }
  else st

/-- Lines 169–218: an oversize paragraph is split into chunk pages and the
accumulator is reset (`currentPageOffsetStart = -1`); otherwise the paragraph
joins the accumulator, contributing its length plus 50 to the running
count. -/
def oversizeOrAppend (cpp : ℚ) (st : PState) (p : Para) : PState :=
  if (p.len : ℚ) > cpp then
    { pages := (flushBeforeSplit st p).pages ++ splitChunks cpp (p.start : ℚ) p.text,
      content := [], accStart := -1, count := 0 }
  else
    { st with content := st.content ++ [p.text], count := st.count + p.len + 50 }

/-- The body of the `for (const paraObj of paragraphs)` loop
(lines 137–219): title-forces-break, capacity overflow, oversize split,
otherwise accumulate. -/
def processPara (cpp : ℚ) (st : PState) (p : Para) : PState :=
  oversizeOrAppend cpp (overflowBreak cpp (titleBreak (accStartInit st p) p) p) p

/-- Run the pagination loop over the paragraph list. -/
def runParas (cpp : ℚ) : PState → List Para → PState
  | st, [] => st
  | st, p :: ps => runParas cpp (processPara cpp st p) ps

/-- Build the paragraph records from the `fullText.split('\n\n')` pieces,
tracking the running `searchIndex` (lines 103–124): blank pieces only advance
the index, others are trimmed and recorded with their start offset. -/
def buildParas : List Str → ℕ → List Para
  | [], _ => []
  | piece :: rest, idx =>
    let t := jsTrim piece
    if t = [] then buildParas rest (idx + piece.length + 2)
    else ⟨t, idx, t.length⟩ :: buildParas rest (idx + piece.length + 2)

/-- The value of `searchIndex` after the paragraph scan: every piece advances
it by its raw length plus the two consumed delimiter characters. -/
def searchIndexEnd (pieces : List Str) (idx : ℕ) : ℕ :=
  pieces.foldl (fun a pc => a + pc.length + 2) idx

/-- `paginateContent` (lines 80–237), as a function of the extracted per-page
texts and of the raw computed viewport budget (the value
`charsPerLine * linesPerPage * 0.85` of line 89); the engine floors the
effective budget at 100.  Joins the extracted pages with the two-newline
delimiter, builds paragraphs, runs the pagination loop, pushes the last
accumulator page with `end = searchIndex`, and drops pages whose joined
content has 5 or fewer characters. -/
def paginateContent (extractedText : List Str) (rawBudget : ℚ) : List VPage :=
  let charsPerPage : ℚ := max 100 rawBudget
  let fullText := List.intercalate ['\n', '\n'] extractedText
  let pieces := splitNN fullText
  let paras := buildParas pieces 0
  let fin := runParas charsPerPage ⟨[], [], -1, 0⟩ paras
  let withLast :=
    if fin.content ≠ [] ∧ fin.accStart ≠ -1 then
      fin.pages ++ [⟨fin.content, fin.accStart, ((searchIndexEnd pieces 0 : ℕ) : ℚ)⟩]
    else fin.pages
  withLast.filter (fun pg => 5 < pg.content.flatten.length)

/-- First page (1-based) whose `[start, end]` range contains the offset
(lines 462–467). -/
def scanContain : List VPage → ℚ → ℕ → Option ℕ
  | [], _, _ => none
  | pg :: rest, o, i =>
    if pg.start ≤ o ∧ o ≤ pg.stop then some (i + 1) else scanContain rest o (i + 1)

/-- The fallback scan of lines 470–479: track the best (1-based) page and the
least distance seen so far; `none` models the initial `Infinity`. -/
def scanClosest : List VPage → ℚ → ℕ → Int → Option ℚ → Int × Option ℚ
  | [], _, _, best, md => (best, md)
  | pg :: rest, o, i, best, md =>
    let d := |pg.start - o|
    let improved := match md with | none => true | some m => decide (d < m)
    if improved then scanClosest rest o (i + 1) ((i : Int) + 1) (some d)
    else scanClosest rest o (i + 1) best md

/-- `findPageForOffset` (lines 459–482): reject missing or negative offsets,
return the first containing page, else the closest page by start offset if
within the 1000-character tolerance, else `-1`. -/
def findPageForOffset (pages : List VPage) (offset : Option ℚ) : Int :=
  match offset with
  | none => -1
  | some o =>
    if o < 0 then -1
    else
      match scanContain pages o 0 with
      | some r => (r : Int)
      | none =>
        let bm := scanClosest pages o 0 (-1) none
        match bm.2 with
        | some m => if m < 1000 then bm.1 else -1
        | none => -1

/-- The reader's typography settings (the module-level `fontSize`,
`lineHeight`, `fontFamily`). -/
structure ReaderSettings where
  fontSize : ℚ
  lineHeight : ℚ
  fontFamily : Str
deriving DecidableEq, Repr

/-- The module's initial values (lines 18–20). -/
def initialSettings : ReaderSettings := ⟨18, 1.8, "Lora".toList⟩

/-- `setFontSize` (lines 342–346): clamp into `[12, 32]`, store, return. -/
def setFontSize (st : ReaderSettings) (size : ℚ) : ReaderSettings × ℚ :=
  let f := max 12 (min 32 size)
  ({ st with fontSize := f }, f)

/-- `setLineHeight` (lines 349–353): clamp into `[1.2, 2.5]`, store, return. -/
def setLineHeight (st : ReaderSettings) (h : ℚ) : ReaderSettings × ℚ :=
  let l := max 1.2 (min 2.5 h)
  ({ st with lineHeight := l }, l)

/-- `setFontFamily` (lines 356–359): store, return. -/
def setFontFamily (st : ReaderSettings) (fam : Str) : ReaderSettings × Str :=
  ({ st with fontFamily := fam }, fam)

/-- The settings operations a caller can perform. -/
inductive ReaderOp where
  | setFont (s : ℚ)
  | setLine (h : ℚ)
  | setFamily (f : Str)

/-- Apply one settings operation to the state. -/
def applyOp (st : ReaderSettings) : ReaderOp → ReaderSettings
  | .setFont s => (setFontSize st s).1
  | .setLine h => (setLineHeight st h).1
  | .setFamily f => (setFontFamily st f).1

/-- Apply a sequence of settings operations. -/
def applyOps (st : ReaderSettings) (ops : List ReaderOp) : ReaderSettings :=
  ops.foldl applyOp st

/-! ## Spec-side definitions -/

/-- Modelled from the spec sentence for Title classification (C6), exactly as
written: Title iff, after stripping non-letter characters, more than 70% of
the remaining characters are uppercase and the original text is under 100
characters.  (No floor on the number of remaining letters.) -/
def isTitleSpec (text : Str) : Bool :=
  let cleaned := text.filter isLetterJS
  let upperCount := (cleaned.filter isUpperJS).length
  decide ((upperCount : ℚ) / (cleaned.length : ℚ) > 0.7) && decide (text.length < 100)

/-! ## C1: title isolation -/

/-- No element after the head of a page's content list is a Title: a Title
never follows earlier content on the same page. -/
def TitleOnlyHead (l : List Str) : Prop :=
  ∀ c ∈ l.tail, isTitleText c = false

/-- The C1 loop invariant: every flushed page and the open accumulator have
titles only at the head. -/
def InvC1 (st : PState) : Prop :=
  (∀ pg ∈ st.pages, TitleOnlyHead pg.content) ∧ TitleOnlyHead st.content

/-! ## C4: monotonic start offsets -/

/-- A rational that is an integer (the budgets for which the claim's
monotonicity statement survives). -/
def IsInt (q : ℚ) : Prop := ∃ n : ℤ, q = (n : ℚ)

/-- Pages emitted by the pagination engine come with strictly increasing
start offsets. -/
def startsChain (l : List VPage) : Prop :=
  List.Chain' (fun p q : VPage => p.start < q.start) l

/-- The pagination-loop invariant for monotonicity: pushed pages have
strictly increasing starts; when the accumulator is empty the offset marker
is unset and all pushed starts lie strictly below the next paragraph start
`L`; when it is non-empty the marker is a natural number strictly below `L`
and bounds all pushed starts strictly from above. -/
def InvC4 (L : ℕ) (st : PState) : Prop :=
  startsChain st.pages ∧
  ((st.content = [] ∧ st.accStart = -1 ∧ ∀ pg ∈ st.pages, pg.start < (L : ℚ)) ∨
   (st.content ≠ [] ∧ (∃ a : ℕ, st.accStart = (a : ℚ) ∧ a < L) ∧
     ∀ pg ∈ st.pages, pg.start < st.accStart))

/-- Well-formedness of the paragraph list produced by the aggregation scan:
each paragraph starts at or after the barrier, its recorded length is its
text's length, and the next barrier clears this paragraph plus the
two-character delimiter. -/
def ParasOK : ℕ → List Para → Prop
  | _, [] => True
  | L, p :: ps => L ≤ p.start ∧ p.text.length = p.len ∧ ParasOK (p.start + p.len + 2) ps

/-- Executable check that start offsets strictly increase along the list. -/
def startsChainB : List VPage → Bool
  | [] => true
  | [_] => true
  | p :: q :: rest => decide (p.start < q.start) && startsChainB (q :: rest)

/-! ## C5: offset locator contract -/

/-- Modelled from the spec sentences for the Offset Locator (C5): the
containment predicate of the claim, "the page whose `[start, end]` range
contains the offset". -/
def containsOffset (o : ℚ) (pg : VPage) : Bool :=
  decide (pg.start ≤ o ∧ o ≤ pg.stop)

/-- Modelled from the spec sentences for the Offset Locator (C5): the
0-based index of the page whose start is numerically closest to the offset,
ties resolving to the earlier index, together with that least distance. -/
def bestIdx (o : ℚ) : List VPage → Option (ℕ × ℚ)
  | [] => none
  | pg :: rest =>
    match bestIdx o rest with
    | none => some (0, |pg.start - o|)
    | some (j, m) => if m < |pg.start - o| then some (j + 1, m) else some (0, |pg.start - o|)

/-- Modelled from the spec sentences for the Offset Locator (C5), exactly as
written: first page containing the offset; otherwise the closest page by
start offset, ties to the earlier index, accepted only below the tolerance
of 1000; otherwise NotFound (`-1`). -/
def locateSpec (pages : List VPage) (o : ℚ) : Int :=
  match pages.findIdx? (containsOffset o) with
  | some j => (j : Int) + 1
  | none =>
    match bestIdx o pages with
    | some jm => if jm.2 < 1000 then (jm.1 : Int) + 1 else -1
    | none => -1

example : isTitleText "CHAPTER ONE".toList = true := by decide

example : isTitleText "hello world".toList = false := by decide

example : isTitleText "AB".toList = false := by decide

example : jsTrim "  ab c  ".toList = "ab c".toList := by decide

example : splitNN "a\n\nb\n\n".toList = ["a".toList, "b".toList, [] ] := by decide

example : collapseWS "a  b c".toList = "a b c".toList := by decide

example : lastIndexOf "ab. cd. e".toList ". ".toList 6 = 6 := by decide

example : lastIndexOf "ab. cd. e".toList ". ".toList 5 = 2 := by decide

example : lastIndexOf "abc".toList ". ".toList 2 = -1 := by decide

/-! ## C6: Title classification rule -/

/-- C6 (counterexample): the spec rule classifies the two-character text
`"AB"` (100% uppercase letters, under 100 characters) as a Title, but the
code classifies it as Body, because the code additionally requires at least
3 letters to remain after stripping. -/
theorem c6_title_rule_counterexample :
    isTitleSpec "AB".toList = true ∧ isTitleText "AB".toList = false := by
  decide

/-- C6 (amended): a trimmed paragraph text is classified as Title if and only
if at least 3 letter characters remain after stripping non-letters, more than
70% of the remaining characters are uppercase, and the original text is under
100 characters. -/
theorem c6_title_rule (t : Str) :
    isTitleText t = (isTitleSpec t && decide (3 ≤ (t.filter isLetterJS).length)) := by
  unfold isTitleText isTitleSpec
  by_cases h : (t.filter isLetterJS).length < 3
  · simp only [if_pos h]
    have : ¬ (3 ≤ (t.filter isLetterJS).length) := by omega
    simp [this]
  · simp only [if_neg h]
    have : (3 ≤ (t.filter isLetterJS).length) := by omega
    simp [this]

/-! ## C8: Determinism of pagination -/

/-- C8: pagination is a pure function of the extracted text and the layout
budget — two runs with identical inputs produce identical page lists: the
same page count, the same content strings in the same order, and the same
start/end offsets. -/
theorem c8_determinism (t₁ t₂ : List Str) (b₁ b₂ : ℚ)
    (ht : t₁ = t₂) (hb : b₁ = b₂) :
    paginateContent t₁ b₁ = paginateContent t₂ b₂ ∧
    (paginateContent t₁ b₁).length = (paginateContent t₂ b₂).length ∧
    (paginateContent t₁ b₁).map VPage.content = (paginateContent t₂ b₂).map VPage.content ∧
    (paginateContent t₁ b₁).map VPage.start = (paginateContent t₂ b₂).map VPage.start ∧
    (paginateContent t₁ b₁).map VPage.stop = (paginateContent t₂ b₂).map VPage.stop := by
  subst ht; subst hb
  exact ⟨rfl, rfl, rfl, rfl, rfl⟩

/-- C8 witness at a concrete input. -/
theorem c8_determinism_witness :
    paginateContent ["hello".toList] 100 = paginateContent ["hello".toList] 100 :=
  (c8_determinism ["hello".toList] ["hello".toList] 100 100 rfl rfl).1

/-! ## C9: Font-size clamp invariant -/

/-- C9: `setFontSize` stores and returns `max(12, min(32, s))`, and starting
from the initial font size 18, the stored font size stays within `[12, 32]`
after any sequence of settings operations. -/
theorem c9_font_size_clamp :
    (∀ (st : ReaderSettings) (s : ℚ),
        (setFontSize st s).2 = max 12 (min 32 s) ∧
        (setFontSize st s).1.fontSize = max 12 (min 32 s)) ∧
    (∀ ops : List ReaderOp,
        12 ≤ (applyOps initialSettings ops).fontSize ∧
        (applyOps initialSettings ops).fontSize ≤ 32) := by
  constructor
  · intro st s; exact ⟨rfl, rfl⟩
  · have inv : ∀ (ops : List ReaderOp) (st : ReaderSettings),
        12 ≤ st.fontSize → st.fontSize ≤ 32 →
        12 ≤ (applyOps st ops).fontSize ∧ (applyOps st ops).fontSize ≤ 32 := by
      intro ops
      induction ops with
      | nil => intro st h1 h2; exact ⟨h1, h2⟩
      | cons op rest ih =>
        intro st h1 h2
        cases op with
        | setFont s =>
          refine ih _ ?_ ?_
          · exact le_max_left _ _
          · exact max_le (by norm_num) (min_le_left _ _)
        | setLine h => exact ih _ h1 h2
        | setFamily f => exact ih _ h1 h2
    intro ops
    exact inv ops initialSettings (by norm_num [initialSettings]) (by norm_num [initialSettings])

/-! ## C10: Invalid-offset rejection -/

/-- C10: for every page list, `findPageForOffset` answers `-1` (NotFound)
when the anchor offset is missing (`null`/`undefined`) or negative. -/
theorem c10_invalid_offset (pages : List VPage) :
    findPageForOffset pages none = -1 ∧
    ∀ o : ℚ, o < 0 → findPageForOffset pages (some o) = -1 := by
  refine ⟨rfl, ?_⟩
  intro o ho
  unfold findPageForOffset
  simp [if_pos ho]

/-- C10 witness: a negative offset against a non-empty page list. -/
theorem c10_invalid_offset_witness :
    findPageForOffset [⟨["ab".toList], 0, 10⟩] (some (-3)) = -1 :=
  (c10_invalid_offset [⟨["ab".toList], 0, 10⟩]).2 (-3) (by norm_num)

/-! ## Basic lemmas about the string operations -/

lemma length_jsTrim_le (s : Str) : (jsTrim s).length ≤ s.length := by
  unfold jsTrim
  calc ((s.dropWhile isWS).reverse.dropWhile isWS).reverse.length
      = ((s.dropWhile isWS).reverse.dropWhile isWS).length := List.length_reverse _
    _ ≤ (s.dropWhile isWS).reverse.length := (List.dropWhile_sublist _).length_le
    _ = (s.dropWhile isWS).length := List.length_reverse _
    _ ≤ s.length := (List.dropWhile_sublist _).length_le

lemma lastIndexOf_le (s needle : Str) (pos : ℕ) :
    lastIndexOf s needle pos ≤ (pos : Int) := by
  unfold lastIndexOf
  cases hf : (List.range (pos + 1)).reverse.find? (occursAt s needle) with
  | none =>
    show (-1 : Int) ≤ (pos : Int)
    omega
  | some i =>
    have hm := List.mem_of_find?_eq_some hf
    rw [List.mem_reverse, List.mem_range] at hm
    show ((i : ℕ) : Int) ≤ (pos : Int)
    omega

lemma bp0Of_nonneg (cpp : ℚ) (rem : Str) (hc : 0 ≤ cpp) : 0 ≤ bp0Of cpp rem := by
  unfold bp0Of
  have : (0 : ℚ) ≤ ((rem.length : ℕ) : ℚ) := by positivity
  exact le_min this hc

lemma floor_bp0_le (cpp : ℚ) (rem : Str) (hc : 0 ≤ cpp) :
    ((⌊bp0Of cpp rem⌋.toNat : ℕ) : ℚ) ≤ cpp := by
  have h0 : (0 : ℤ) ≤ ⌊bp0Of cpp rem⌋ := Int.floor_nonneg.mpr (bp0Of_nonneg cpp rem hc)
  have h1 : ((⌊bp0Of cpp rem⌋.toNat : ℕ) : ℤ) = ⌊bp0Of cpp rem⌋ := Int.toNat_of_nonneg h0
  have h2 : ((⌊bp0Of cpp rem⌋ : ℤ) : ℚ) ≤ bp0Of cpp rem := Int.floor_le _
  have h3 : ((⌊bp0Of cpp rem⌋.toNat : ℕ) : ℚ) = ((⌊bp0Of cpp rem⌋ : ℤ) : ℚ) := by
    exact_mod_cast congrArg (fun z : ℤ => (z : ℚ)) h1
  rw [h3]
  exact le_trans h2 (min_le_right _ _)

lemma breakPointOf_ge_one (cpp : ℚ) (rem : Str)
    (hc : 1 ≤ cpp) (hne : rem.length ≠ 0) : 1 ≤ breakPointOf cpp rem := by
  have hlen : (1 : ℚ) ≤ ((rem.length : ℕ) : ℚ) := by
    have : 1 ≤ rem.length := Nat.one_le_iff_ne_zero.mpr hne
    exact_mod_cast this
  have hbp0 : (1 : ℚ) ≤ bp0Of cpp rem := le_min hlen hc
  have hhalf : (0 : ℚ) < cpp * 0.5 := by nlinarith
  unfold breakPointOf
  split
  · split
    · rename_i hse
      have hse0 : (0 : ℤ) < sentenceEndOf cpp rem := by exact_mod_cast lt_trans hhalf hse
      have : (1 : ℚ) ≤ ((sentenceEndOf cpp rem : ℤ) : ℚ) := by exact_mod_cast hse0
      linarith
    · split
      · rename_i hwb
        have hwb0 : (0 : ℤ) < wordBreakOf cpp rem := by exact_mod_cast lt_trans hhalf hwb
        exact_mod_cast hwb0
      · exact hbp0
  · exact hbp0

lemma breakPointOf_le_cpp_add_one (cpp : ℚ) (rem : Str) (hc : 0 ≤ cpp) :
    breakPointOf cpp rem ≤ cpp + 1 := by
  have hbp0_le : bp0Of cpp rem ≤ cpp := min_le_right _ _
  have hfl := floor_bp0_le cpp rem hc
  unfold breakPointOf
  split
  · split
    · have h3 := lastIndexOf_le rem ['.', ' '] ⌊bp0Of cpp rem⌋.toNat
      have h4 : ((sentenceEndOf cpp rem : ℤ) : ℚ) ≤ ((⌊bp0Of cpp rem⌋.toNat : ℕ) : ℚ) := by
        unfold sentenceEndOf
        exact_mod_cast h3
      linarith
    · split
      · have h3 := lastIndexOf_le rem [' '] ⌊bp0Of cpp rem⌋.toNat
        have h4 : ((wordBreakOf cpp rem : ℤ) : ℚ) ≤ ((⌊bp0Of cpp rem⌋.toNat : ℕ) : ℚ) := by
          unfold wordBreakOf
          exact_mod_cast h3
        linarith
      · linarith
  · linarith

lemma length_drop_step (rem : Str) (bp : ℚ) (h1 : 1 ≤ bp) (hne : rem.length ≠ 0) :
    (jsTrim (jsSubstrFrom rem bp)).length < rem.length := by
  unfold jsSubstrFrom
  have hfl : 1 ≤ ⌊bp⌋ := Int.le_floor.mpr (by exact_mod_cast h1)
  have htn : 1 ≤ ⌊bp⌋.toNat := by omega
  have hd : (rem.drop ⌊bp⌋.toNat).length < rem.length := by
    rw [List.length_drop]
    omega
  exact lt_of_le_of_lt (length_jsTrim_le _) hd

/-! ## C2: minimum budget floor and termination of the split loop -/

lemma splitChunksF_stable (cpp : ℚ) (hc : 1 ≤ cpp) :
    ∀ (f₁ : ℕ), ∀ (f₂ : ℕ) (ss : ℚ) (rem : Str), rem.length < f₁ → rem.length < f₂ →
      splitChunksF f₁ cpp ss rem = splitChunksF f₂ cpp ss rem := by
  intro f₁
  induction f₁ with
  | zero => intro f₂ ss rem h1 _; omega
  | succ f ih =>
    intro f₂ ss rem h1 h2
    cases f₂ with
    | zero => omega
    | succ g =>
      show splitChunksF (f + 1) cpp ss rem = splitChunksF (g + 1) cpp ss rem
      unfold splitChunksF
      by_cases hz : rem.length = 0
      · simp [hz]
      · simp only [if_neg hz]
        congr 1
        have hb := breakPointOf_ge_one cpp rem hc hz
        have hlt := length_drop_step rem (breakPointOf cpp rem) hb hz
        exact ih g (ss + breakPointOf cpp rem) _ (by omega) (by omega)

lemma paginateContent_budget_congr (et : List Str) (b₁ b₂ : ℚ)
    (h : max 100 b₁ = max 100 b₂) : paginateContent et b₁ = paginateContent et b₂ := by
  simp only [paginateContent]
  rw [h]

/-- C2: the engine floors the effective characters-per-page at 100 regardless
of the computed viewport budget, the oversize-split loop is insensitive to
any further fuel once it has enough to drain its input (so the pagination run
terminates on every input), and a computed budget of 1 paginates exactly as
the floor value 100 does. -/
theorem c2_min_budget_floor (b : ℚ) :
    (100 : ℚ) ≤ max 100 b ∧
    (∀ (ss : ℚ) (rem : Str) (fuel : ℕ), rem.length < fuel →
        splitChunksF fuel (max 100 b) ss rem = splitChunks (max 100 b) ss rem) ∧
    (∀ extracted : List Str, paginateContent extracted 1 = paginateContent extracted 100) := by
  refine ⟨le_max_left _ _, ?_, ?_⟩
  · intro ss rem fuel hf
    have hc : (1 : ℚ) ≤ max 100 b := le_trans (by norm_num) (le_max_left _ _)
    exact splitChunksF_stable (max 100 b) hc fuel (rem.length + 1) ss rem hf (by omega)
  · intro extracted
    refine paginateContent_budget_congr extracted 1 100 ?_
    norm_num

/-- C2 witness: a concrete run of the split loop with surplus fuel agrees
with the canonical fuel. -/
theorem c2_min_budget_floor_witness :
    splitChunksF 17 (max 100 1) 0 "abcd".toList = splitChunks (max 100 1) 0 "abcd".toList :=
  (c2_min_budget_floor 1).2.1 0 "abcd".toList 17 (by decide)

/-! ## C7: degenerate page filter -/

/-- C7 (counterexample): the spec's filter condition speaks of the joined
content after whitespace collapse, but the code filters on the raw joined
content.  The single-paragraph text `"a  b c"` (6 characters, with a double
space) survives the code's filter even though its whitespace-collapsed join
has exactly 5 characters. -/
theorem c7_degenerate_filter_counterexample :
    ∃ pg ∈ paginateContent ["a  b c".toList] 0,
      (collapseWS pg.content.flatten).length ≤ 5 := by
  decide

/-- C7 (amended): every page in the final list has raw joined content
(without whitespace collapse) of more than 5 characters; pages whose joined
content is 5 characters or fewer are dropped before renumbering. -/
theorem c7_degenerate_filter (extracted : List Str) (b : ℚ) (pg : VPage)
    (h : pg ∈ paginateContent extracted b) : 5 < pg.content.flatten.length := by
  simp only [paginateContent, List.mem_filter] at h
  exact_mod_cast of_decide_eq_true h.2

/-- C7 witness at a concrete input. -/
theorem c7_degenerate_filter_witness :
    5 < (VPage.mk ["abcdef".toList] 0 8).content.flatten.length :=
  c7_degenerate_filter ["abcdef".toList] 0 ⟨["abcdef".toList], 0, 8⟩ (by decide)

/-! ## C3: oversize split chunk bound -/

lemma chunk_length_le (cpp : ℚ) (rem : Str) (hc : 0 ≤ cpp) :
    (((jsTrim (jsSubstrTo rem (breakPointOf cpp rem))).length : ℕ) : ℚ) ≤ cpp + 1 := by
  have hbp := breakPointOf_le_cpp_add_one cpp rem hc
  have h1 : (jsTrim (jsSubstrTo rem (breakPointOf cpp rem))).length ≤
      ⌊breakPointOf cpp rem⌋.toNat := by
    refine le_trans (length_jsTrim_le _) ?_
    unfold jsSubstrTo
    rw [List.length_take]
    exact min_le_left _ _
  have h2 : ((⌊breakPointOf cpp rem⌋.toNat : ℕ) : ℚ) ≤ cpp + 1 := by
    rcases le_or_lt ⌊breakPointOf cpp rem⌋ 0 with h | h
    · have h0 : ⌊breakPointOf cpp rem⌋.toNat = 0 := Int.toNat_of_nonpos h
      rw [h0]
      push_cast
      linarith
    · have h0 : ((⌊breakPointOf cpp rem⌋.toNat : ℕ) : ℤ) = ⌊breakPointOf cpp rem⌋ :=
        Int.toNat_of_nonneg (le_of_lt h)
      have h5 : ((⌊breakPointOf cpp rem⌋ : ℤ) : ℚ) ≤ breakPointOf cpp rem := Int.floor_le _
      calc ((⌊breakPointOf cpp rem⌋.toNat : ℕ) : ℚ)
          = ((⌊breakPointOf cpp rem⌋ : ℤ) : ℚ) := by exact_mod_cast congrArg (fun z : ℤ => (z : ℚ)) h0
        _ ≤ breakPointOf cpp rem := h5
        _ ≤ cpp + 1 := hbp
  refine le_trans ?_ h2
  exact_mod_cast h1

lemma splitChunksF_chunk_bound (cpp : ℚ) (hc : 0 ≤ cpp) :
    ∀ (fuel : ℕ) (ss : ℚ) (rem : Str) (pg : VPage), pg ∈ splitChunksF fuel cpp ss rem →
      ∀ c ∈ pg.content, ((c.length : ℕ) : ℚ) ≤ cpp + 1 := by
  intro fuel
  induction fuel with
  | zero =>
    intro ss rem pg h
    simp [splitChunksF] at h
  | succ f ih =>
    intro ss rem pg h c hcmem
    by_cases hz : rem.length = 0
    · simp [splitChunksF, hz] at h
    · simp only [splitChunksF, if_neg hz, List.mem_append] at h
      rcases h with h | h
      · by_cases hch : jsTrim (jsSubstrTo rem (breakPointOf cpp rem)) = []
        · simp [hch] at h
        · simp only [if_pos (by exact hch : jsTrim (jsSubstrTo rem (breakPointOf cpp rem)) ≠ []),
            List.mem_singleton] at h
          subst h
          simp only [List.mem_singleton] at hcmem
          subst hcmem
          exact chunk_length_le cpp rem hc
      · exact ih _ _ pg h c hcmem

/-- C3 (amended): every chunk produced by the oversize split has at most
`charsPerPage + 1` characters (the sentence-boundary cut can include the
period standing exactly at the hard limit, one character past the budget),
and a single run of `5 × charsPerPage` characters with no sentence or word
boundaries yields exactly 5 chunks of exactly `charsPerPage` characters,
each its own single-paragraph page. -/
theorem c3_oversize_split_bound (b : ℚ) :
    (∀ (fuel : ℕ) (ss : ℚ) (rem : Str) (pg : VPage),
        pg ∈ splitChunksF fuel (max 100 b) ss rem →
        ∀ c ∈ pg.content, ((c.length : ℕ) : ℚ) ≤ max 100 b + 1) ∧
    (paginateContent [List.replicate 500 'a'] 100).map (fun pg => pg.content.map List.length)
        = [[100], [100], [100], [100], [100]] := by
  constructor
  · intro fuel ss rem pg h c hcmem
    exact splitChunksF_chunk_bound (max 100 b)
      (le_trans (by norm_num) (le_max_left _ _)) fuel ss rem pg h c hcmem
  · decide

/-- C3 witness: the bound applied to a concrete split. -/
theorem c3_oversize_split_bound_witness :
    ((("ab".toList.length : ℕ) : ℚ) ≤ max 100 0 + 1) :=
  (c3_oversize_split_bound 0).1 3 0 "ab".toList ⟨["ab".toList], 0, 2⟩ (by decide)
    "ab".toList (by decide)

/-- C3 (counterexample): with an effective budget of 120 characters, a
paragraph whose first sentence boundary sits exactly at the hard limit is cut
one character past it — the resulting chunk has 121 characters, exceeding
`charsPerPage`, contradicting the claim that no chunk exceeds the budget. -/
theorem c3_oversize_split_counterexample :
    ∃ pg ∈ paginateContent [List.replicate 120 'a' ++ ['.', ' '] ++ List.replicate 20 'b'] 120,
      ∃ c ∈ pg.content, max (100 : ℚ) 120 < ((c.length : ℕ) : ℚ) := by
  decide

lemma titleOnlyHead_nil : TitleOnlyHead [] := by
  intro c hc
  simp at hc

lemma titleOnlyHead_singleton (x : Str) : TitleOnlyHead [x] := by
  intro c hc
  simp at hc

lemma titleOnlyHead_append (l : List Str) (x : Str) (hl : TitleOnlyHead l)
    (hx : isTitleText x = false ∨ l = []) : TitleOnlyHead (l ++ [x]) := by
  cases l with
  | nil => exact titleOnlyHead_singleton x
  | cons a l' =>
    intro c hc
    simp only [List.cons_append, List.tail_cons] at hc
    rw [List.mem_append, List.mem_singleton] at hc
    rcases hc with hc | hc
    · exact hl c hc
    · subst hc
      rcases hx with hx | hx
      · exact hx
      · simp at hx

lemma invC1_accStartInit (st : PState) (p : Para) (h : InvC1 st) :
    InvC1 (accStartInit st p) := by
  unfold accStartInit
  split <;> exact h

lemma accStartInit_content (st : PState) (p : Para) :
    (accStartInit st p).content = st.content := by
  unfold accStartInit
  split <;> rfl

lemma invC1_titleBreak (st : PState) (p : Para) (h : InvC1 st) :
    InvC1 (titleBreak st p) ∧
      (isTitleText p.text = false ∨ (titleBreak st p).content = []) := by
  unfold titleBreak
  split
  · refine ⟨⟨?_, titleOnlyHead_nil⟩, Or.inr rfl⟩
    intro pg hpg
    rw [List.mem_append, List.mem_singleton] at hpg
    rcases hpg with hpg | hpg
    · exact h.1 pg hpg
    · subst hpg
      exact h.2
  · rename_i hcond
    refine ⟨h, ?_⟩
    by_cases ht : isTitleText p.text = true
    · right
      by_contra hne
      exact hcond ⟨ht, hne⟩
    · left
      exact Bool.not_eq_true _ ▸ (by simpa using ht)

lemma invC1_overflowBreak (cpp : ℚ) (st : PState) (p : Para) (h : InvC1 st)
    (hd : isTitleText p.text = false ∨ st.content = []) :
    InvC1 (overflowBreak cpp st p) ∧
      (isTitleText p.text = false ∨ (overflowBreak cpp st p).content = []) := by
  unfold overflowBreak
  split
  · refine ⟨⟨?_, titleOnlyHead_nil⟩, Or.inr rfl⟩
    intro pg hpg
    rw [List.mem_append, List.mem_singleton] at hpg
    rcases hpg with hpg | hpg
    · exact h.1 pg hpg
    · subst hpg
      exact h.2
  · exact ⟨h, hd⟩

lemma splitChunksF_singleton :
    ∀ (fuel : ℕ) (cpp ss : ℚ) (rem : Str) (pg : VPage),
      pg ∈ splitChunksF fuel cpp ss rem → ∃ c, pg.content = [c] := by
  intro fuel
  induction fuel with
  | zero =>
    intro cpp ss rem pg h
    simp [splitChunksF] at h
  | succ f ih =>
    intro cpp ss rem pg h
    by_cases hz : rem.length = 0
    · simp [splitChunksF, hz] at h
    · simp only [splitChunksF, if_neg hz, List.mem_append] at h
      rcases h with h | h
      · by_cases hch : jsTrim (jsSubstrTo rem (breakPointOf cpp rem)) = []
        · simp [hch] at h
        · simp only [if_pos (by exact hch : jsTrim (jsSubstrTo rem (breakPointOf cpp rem)) ≠ []),
            List.mem_singleton] at h
          subst h
          exact ⟨_, rfl⟩
      · exact ih cpp _ _ pg h

lemma invC1_oversizeOrAppend (cpp : ℚ) (st : PState) (p : Para) (h : InvC1 st)
    (hd : isTitleText p.text = false ∨ st.content = []) :
    InvC1 (oversizeOrAppend cpp st p) := by
  unfold oversizeOrAppend
  split
  · refine ⟨?_, titleOnlyHead_nil⟩
    intro pg hpg
    rw [List.mem_append] at hpg
    rcases hpg with hpg | hpg
    · unfold flushBeforeSplit at hpg
      split at hpg
      · simp only at hpg
        rw [List.mem_append, List.mem_singleton] at hpg
        rcases hpg with hpg | hpg
        · exact h.1 pg hpg
        · subst hpg
          exact h.2
      · exact h.1 pg hpg
    · obtain ⟨c, hc⟩ := splitChunksF_singleton _ cpp _ p.text pg hpg
      rw [hc]
      exact titleOnlyHead_singleton c
  · refine ⟨h.1, ?_⟩
    exact titleOnlyHead_append st.content p.text h.2 hd

lemma invC1_processPara (cpp : ℚ) (st : PState) (p : Para) (h : InvC1 st) :
    InvC1 (processPara cpp st p) := by
  unfold processPara
  have h0 := invC1_accStartInit st p h
  have h1 := invC1_titleBreak (accStartInit st p) p h0
  have h2 := invC1_overflowBreak cpp (titleBreak (accStartInit st p) p) p h1.1 h1.2
  exact invC1_oversizeOrAppend cpp _ p h2.1 h2.2

lemma invC1_runParas (cpp : ℚ) :
    ∀ (paras : List Para) (st : PState), InvC1 st → InvC1 (runParas cpp st paras) := by
  intro paras
  induction paras with
  | nil => intro st h; exact h
  | cons p ps ih =>
    intro st h
    exact ih _ (invC1_processPara cpp st p h)

lemma isTitleText_length_lt (t : Str) (h : isTitleText t = true) : t.length < 100 := by
  unfold isTitleText at h
  by_cases hc : (List.filter isLetterJS t).length < 3
  · simp [hc] at h
  · simp only [hc, if_false, Bool.and_eq_true, decide_eq_true_eq] at h
    exact h.2

/-- C1: (i) whenever a Title paragraph is encountered while the accumulator
already holds content, the step flushes the accumulator as a completed page
whose end offset is the Title's start minus one, and the Title starts the new
page as its only (hence first) element; (ii) in the final page list produced
by `paginateContent`, for every text and every budget, a Title paragraph
never appears after earlier content on the same page. -/
theorem c1_title_isolation :
    (∀ (cpp : ℚ) (st : PState) (p : Para), 100 ≤ cpp → isTitleText p.text = true →
        st.content ≠ [] → p.len = p.text.length →
        processPara cpp st p =
          ⟨st.pages ++ [⟨st.content,
              (if st.accStart = -1 then (p.start : ℚ) else st.accStart), (p.start : ℚ) - 1⟩],
            [p.text], (p.start : ℚ), p.len + 50⟩) ∧
    (∀ (extracted : List Str) (b : ℚ) (pg : VPage),
        pg ∈ paginateContent extracted b → TitleOnlyHead pg.content) := by
  constructor
  · intro cpp st p hcpp ht hne hlen
    have hA : accStartInit st p =
        { st with accStart := (if st.accStart = -1 then (p.start : ℚ) else st.accStart) } := by
      unfold accStartInit
      by_cases hs : st.accStart = -1
      · simp [hs]
      · simp [hs]
    have hlt : (p.len : ℚ) ≤ cpp := by
      have h100 : p.len < 100 := by
        rw [hlen]
        exact isTitleText_length_lt _ ht
      have : ((p.len : ℕ) : ℚ) < 100 := by exact_mod_cast h100
      linarith
    unfold processPara
    rw [hA]
    unfold titleBreak
    rw [if_pos (by exact ⟨ht, hne⟩)]
    unfold overflowBreak
    rw [if_neg (by simp)]
    unfold oversizeOrAppend
    rw [if_neg (by simpa using hlt)]
    simp
  · intro extracted b pg hpg
    simp only [paginateContent, List.mem_filter] at hpg
    have hmem := hpg.1
    have hinv := invC1_runParas (max 100 b)
      (buildParas (splitNN (List.intercalate ['\n', '\n'] extracted)) 0)
      ⟨[], [], -1, 0⟩ ⟨by intro pg h; simp at h, titleOnlyHead_nil⟩
    set fin := runParas (max 100 b)
      ⟨[], [], -1, 0⟩ (buildParas (splitNN (List.intercalate ['\n', '\n'] extracted)) 0) with hfin
    by_cases hlast : fin.content ≠ [] ∧ fin.accStart ≠ -1
    · rw [if_pos hlast, List.mem_append, List.mem_singleton] at hmem
      rcases hmem with hmem | hmem
      · exact hinv.1 pg hmem
      · subst hmem
        exact hinv.2
    · rw [if_neg hlast] at hmem
      exact hinv.1 pg hmem

/-- C1 witness: a concrete title-break step and a concrete page of the final
list with a title at its head followed by body content. -/
theorem c1_title_isolation_witness :
    (processPara 100 ⟨[], ["xy".toList], 0, 52⟩ ⟨"ABC".toList, 6, 3⟩ =
        ⟨[⟨["xy".toList], 0, 5⟩], ["ABC".toList], 6, 53⟩) ∧
    TitleOnlyHead (VPage.mk ["CHAPTER ONE".toList,
        "hello world this is a body".toList] 0 41).content := by
  constructor
  · have h := (c1_title_isolation).1 100 ⟨[], ["xy".toList], 0, 52⟩ ⟨"ABC".toList, 6, 3⟩
      (by norm_num) (by decide) (by decide) (by decide)
    simpa using h
  · exact (c1_title_isolation).2 ["CHAPTER ONE\n\nhello world this is a body".toList] 0
      ⟨["CHAPTER ONE".toList, "hello world this is a body".toList], 0, 41⟩ (by decide)

lemma isInt_natCast (n : ℕ) : IsInt ((n : ℕ) : ℚ) := ⟨(n : ℤ), by push_cast; rfl⟩

lemma isInt_intCast (n : ℤ) : IsInt ((n : ℤ) : ℚ) := ⟨n, rfl⟩

lemma isInt_min {a b : ℚ} (ha : IsInt a) (hb : IsInt b) : IsInt (min a b) := by
  obtain ⟨m, hm⟩ := ha
  obtain ⟨n, hn⟩ := hb
  refine ⟨min m n, ?_⟩
  rw [hm, hn]
  push_cast
  rfl

lemma isInt_add_one {a : ℚ} (ha : IsInt a) : IsInt (a + 1) := by
  obtain ⟨m, hm⟩ := ha
  exact ⟨m + 1, by rw [hm]; push_cast; rfl⟩

lemma isInt_add {a b : ℚ} (ha : IsInt a) (hb : IsInt b) : IsInt (a + b) := by
  obtain ⟨m, hm⟩ := ha
  obtain ⟨n, hn⟩ := hb
  exact ⟨m + n, by rw [hm, hn]; push_cast; rfl⟩

lemma breakPointOf_isInt (cpp : ℚ) (rem : Str) (h : IsInt cpp) :
    IsInt (breakPointOf cpp rem) := by
  unfold breakPointOf
  split
  · split
    · exact isInt_add_one (isInt_intCast _)
    · split
      · exact isInt_intCast _
      · exact isInt_min (isInt_natCast _) h
  · exact isInt_min (isInt_natCast _) h

lemma bp0Of_le_length (cpp : ℚ) (rem : Str) :
    bp0Of cpp rem ≤ ((rem.length : ℕ) : ℚ) := min_le_left _ _

lemma breakPointOf_le_length (cpp : ℚ) (rem : Str) (hne : rem.length ≠ 0) :
    breakPointOf cpp rem ≤ ((rem.length : ℕ) : ℚ) := by
  have hlen1 : 1 ≤ rem.length := Nat.one_le_iff_ne_zero.mpr hne
  have hfloor_lt : ∀ h : bp0Of cpp rem < ((rem.length : ℕ) : ℚ),
      ((⌊bp0Of cpp rem⌋.toNat : ℕ) : ℚ) + 1 ≤ ((rem.length : ℕ) : ℚ) := by
    intro h
    have h1 : ⌊bp0Of cpp rem⌋ < (rem.length : ℤ) := Int.floor_lt.mpr (by exact_mod_cast h)
    have h1' : (1 : ℤ) ≤ (rem.length : ℤ) := by exact_mod_cast hlen1
    have h2 : (⌊bp0Of cpp rem⌋.toNat : ℤ) + 1 ≤ (rem.length : ℤ) := by omega
    exact_mod_cast h2
  unfold breakPointOf
  split
  · rename_i hlt
    have hfl := hfloor_lt hlt
    split
    · have h3 := lastIndexOf_le rem ['.', ' '] ⌊bp0Of cpp rem⌋.toNat
      have h4 : ((sentenceEndOf cpp rem : ℤ) : ℚ) ≤ ((⌊bp0Of cpp rem⌋.toNat : ℕ) : ℚ) := by
        unfold sentenceEndOf
        exact_mod_cast h3
      linarith
    · split
      · have h3 := lastIndexOf_le rem [' '] ⌊bp0Of cpp rem⌋.toNat
        have h4 : ((wordBreakOf cpp rem : ℤ) : ℚ) ≤ ((⌊bp0Of cpp rem⌋.toNat : ℕ) : ℚ) := by
          unfold wordBreakOf
          exact_mod_cast h3
        linarith
      · exact bp0Of_le_length cpp rem
  · exact bp0Of_le_length cpp rem

lemma startsChain_nil : startsChain [] := List.chain'_nil

lemma startsChain_append (l₁ l₂ : List VPage) (h₁ : startsChain l₁) (h₂ : startsChain l₂)
    (h : ∀ p ∈ l₁, ∀ q ∈ l₂, p.start < q.start) : startsChain (l₁ ++ l₂) := by
  refine List.chain'_append.mpr ⟨h₁, h₂, ?_⟩
  intro x hx y hy
  exact h x (List.mem_of_mem_getLast? hx) y (List.mem_of_mem_head? hy)

lemma startsChain_append_singleton (l : List VPage) (pg : VPage) (h₁ : startsChain l)
    (h : ∀ q ∈ l, q.start < pg.start) : startsChain (l ++ [pg]) := by
  refine startsChain_append l [pg] h₁ (List.chain'_singleton pg) ?_
  intro p hp q hq
  rw [List.mem_singleton] at hq
  subst hq
  exact h p hp

lemma splitChunksF_mono (cpp : ℚ) (hc : 1 ≤ cpp) (hint : IsInt cpp) :
    ∀ (fuel : ℕ) (ss : ℚ) (rem : Str),
      startsChain (splitChunksF fuel cpp ss rem) ∧
      ∀ pg ∈ splitChunksF fuel cpp ss rem,
        ss ≤ pg.start ∧ pg.start + 1 ≤ ss + ((rem.length : ℕ) : ℚ) := by
  intro fuel
  induction fuel with
  | zero =>
    intro ss rem
    exact ⟨startsChain_nil, by intro pg h; simp [splitChunksF] at h⟩
  | succ f ih =>
    intro ss rem
    by_cases hz : rem.length = 0
    · constructor
      · simp only [splitChunksF, if_pos hz]
        exact startsChain_nil
      · intro pg h
        simp [splitChunksF, hz] at h
    · have hb1 : 1 ≤ breakPointOf cpp rem := breakPointOf_ge_one cpp rem hc hz
      have hbInt : IsInt (breakPointOf cpp rem) := breakPointOf_isInt cpp rem hint
      have hbLen : breakPointOf cpp rem ≤ ((rem.length : ℕ) : ℚ) :=
        breakPointOf_le_length cpp rem hz
      obtain ⟨n, hn⟩ := hbInt
      have hn1 : 1 ≤ n := by exact_mod_cast hn ▸ hb1
      have hfloorEq : ⌊breakPointOf cpp rem⌋ = n := by rw [hn]; exact Int.floor_intCast n
      have htoNat : ((⌊breakPointOf cpp rem⌋.toNat : ℕ) : ℚ) = breakPointOf cpp rem := by
        rw [hfloorEq, hn]
        have : n.toNat = n := Int.toNat_of_nonneg (by omega)
        exact_mod_cast congrArg (fun z : ℤ => (z : ℚ)) this
      have hkLen : ⌊breakPointOf cpp rem⌋.toNat ≤ rem.length := by
        have : ((⌊breakPointOf cpp rem⌋.toNat : ℕ) : ℚ) ≤ ((rem.length : ℕ) : ℚ) := by
          rw [htoNat]; exact hbLen
        exact_mod_cast this
      -- length of the remainder after one round, in ℚ
      have hremQ : ((jsTrim (jsSubstrFrom rem (breakPointOf cpp rem))).length : ℚ) +
          breakPointOf cpp rem ≤ ((rem.length : ℕ) : ℚ) := by
        have hdrop : (jsTrim (jsSubstrFrom rem (breakPointOf cpp rem))).length ≤
            rem.length - ⌊breakPointOf cpp rem⌋.toNat := by
          refine le_trans (length_jsTrim_le _) ?_
          unfold jsSubstrFrom
          rw [List.length_drop]
        have hsum : (jsTrim (jsSubstrFrom rem (breakPointOf cpp rem))).length +
            ⌊breakPointOf cpp rem⌋.toNat ≤ rem.length := by omega
        have : (((jsTrim (jsSubstrFrom rem (breakPointOf cpp rem))).length +
            ⌊breakPointOf cpp rem⌋.toNat : ℕ) : ℚ) ≤ ((rem.length : ℕ) : ℚ) := by
          exact_mod_cast hsum
        push_cast at this
        rw [htoNat] at this
        linarith
      obtain ⟨ihChain, ihMem⟩ := ih (ss + breakPointOf cpp rem)
        (jsTrim (jsSubstrFrom rem (breakPointOf cpp rem)))
      have htailMem : ∀ pg ∈ splitChunksF f cpp (ss + breakPointOf cpp rem)
          (jsTrim (jsSubstrFrom rem (breakPointOf cpp rem))),
          ss + 1 ≤ pg.start ∧ pg.start + 1 ≤ ss + ((rem.length : ℕ) : ℚ) := by
        intro pg h
        obtain ⟨h1, h2⟩ := ihMem pg h
        constructor
        · linarith
        · linarith
      constructor
      · simp only [splitChunksF, if_neg hz]
        by_cases hch : jsTrim (jsSubstrTo rem (breakPointOf cpp rem)) = []
        · simp only [hch, ne_eq, not_true_eq_false, if_false, List.nil_append]
          exact ihChain
        · simp only [if_pos (by exact hch : jsTrim (jsSubstrTo rem (breakPointOf cpp rem)) ≠ [])]
          refine startsChain_append _ _ (List.chain'_singleton _) ihChain ?_
          intro p hp q hq
          rw [List.mem_singleton] at hp
          subst hp
          have := (htailMem q hq).1
          show ss < q.start
          linarith
      · intro pg h
        simp only [splitChunksF, if_neg hz] at h
        rw [List.mem_append] at h
        rcases h with h | h
        · by_cases hch : jsTrim (jsSubstrTo rem (breakPointOf cpp rem)) = []
          · simp [hch] at h
          · simp only [if_pos (by exact hch : jsTrim (jsSubstrTo rem (breakPointOf cpp rem)) ≠ []),
              List.mem_singleton] at h
            subst h
            constructor
            · exact le_refl ss
            · have hl1 : (1 : ℚ) ≤ ((rem.length : ℕ) : ℚ) := by
                have : 1 ≤ rem.length := Nat.one_le_iff_ne_zero.mpr hz
                exact_mod_cast this
              show ss + 1 ≤ ss + ((rem.length : ℕ) : ℚ)
              linarith
        · obtain ⟨h1, h2⟩ := htailMem pg h
          exact ⟨by linarith, h2⟩

lemma invC4_mono (L L' : ℕ) (st : PState) (hL : L ≤ L') (h : InvC4 L st) : InvC4 L' st := by
  obtain ⟨hch, hcase⟩ := h
  refine ⟨hch, ?_⟩
  rcases hcase with ⟨h1, h2, h3⟩ | ⟨h1, ⟨a, ha, haL⟩, h3⟩
  · left
    refine ⟨h1, h2, ?_⟩
    intro pg hpg
    have : ((L : ℕ) : ℚ) ≤ ((L' : ℕ) : ℚ) := by exact_mod_cast hL
    exact lt_of_lt_of_le (h3 pg hpg) this
  · right
    exact ⟨h1, ⟨a, ha, lt_of_lt_of_le haL hL⟩, h3⟩

lemma accStartInit_of_unset (st : PState) (p : Para) (h : st.accStart = -1) :
    accStartInit st p = { st with accStart := (p.start : ℚ) } := by
  unfold accStartInit
  rw [if_pos h]

lemma accStartInit_of_set (st : PState) (p : Para) (h : st.accStart ≠ -1) :
    accStartInit st p = st := by
  unfold accStartInit
  rw [if_neg h]

lemma titleBreak_of_neg (st : PState) (p : Para)
    (h : ¬(isTitleText p.text = true ∧ st.content ≠ [])) : titleBreak st p = st := by
  unfold titleBreak
  rw [if_neg h]

lemma titleBreak_of_pos (st : PState) (p : Para)
    (h : isTitleText p.text = true ∧ st.content ≠ []) :
    titleBreak st p =
      ⟨st.pages ++ [⟨st.content, st.accStart, (p.start : ℚ) - 1⟩], [], (p.start : ℚ), 0⟩ := by
  unfold titleBreak
  rw [if_pos h]

lemma overflowBreak_of_neg (cpp : ℚ) (st : PState) (p : Para)
    (h : ¬(((st.count : ℚ) + (p.len : ℚ) > cpp) ∧ st.content ≠ [])) :
    overflowBreak cpp st p = st := by
  unfold overflowBreak
  rw [if_neg h]

lemma overflowBreak_of_pos (cpp : ℚ) (st : PState) (p : Para)
    (h : (((st.count : ℚ) + (p.len : ℚ) > cpp) ∧ st.content ≠ [])) :
    overflowBreak cpp st p =
      ⟨st.pages ++ [⟨st.content, st.accStart, (p.start : ℚ) - 1⟩], [], (p.start : ℚ), 0⟩ := by
  unfold overflowBreak
  rw [if_pos h]

lemma flushBeforeSplit_of_empty (st : PState) (p : Para) (h : st.content = []) :
    flushBeforeSplit st p = st := by
  unfold flushBeforeSplit
  rw [if_neg (not_ne_iff.mpr h)]

lemma flushBeforeSplit_of_nonempty (st : PState) (p : Para) (h : st.content ≠ []) :
    flushBeforeSplit st p =
      { st with
        pages := st.pages ++ [⟨st.content, st.accStart, (p.start : ℚ) - 1⟩],
        content := [], count := 0 } := by
  unfold flushBeforeSplit
  rw [if_pos h]

lemma oversizeOrAppend_of_oversize (cpp : ℚ) (st : PState) (p : Para)
    (h : (p.len : ℚ) > cpp) :
    oversizeOrAppend cpp st p =
      ⟨(flushBeforeSplit st p).pages ++ splitChunks cpp (p.start : ℚ) p.text,
        [], -1, 0⟩ := by
  unfold oversizeOrAppend
  rw [if_pos h]

lemma oversizeOrAppend_of_fit (cpp : ℚ) (st : PState) (p : Para)
    (h : ¬((p.len : ℚ) > cpp)) :
    oversizeOrAppend cpp st p =
      { st with content := st.content ++ [p.text], count := st.count + p.len + 50 } := by
  unfold oversizeOrAppend
  rw [if_neg h]

lemma mem_append_singleton_lt (pgs : List VPage) (pg' : VPage) (y : ℚ)
    (h1 : ∀ pg ∈ pgs, pg.start < y) (h2 : pg'.start < y) :
    ∀ pg ∈ pgs ++ [pg'], pg.start < y := by
  intro pg hpg
  rw [List.mem_append, List.mem_singleton] at hpg
  rcases hpg with hpg | hpg
  · exact h1 pg hpg
  · subst hpg
    exact h2

/-- After splitting an oversize paragraph, the invariant holds for the next
paragraph start, provided all previously pushed pages start strictly before
this paragraph. -/
lemma invC4_oversizeResult (cpp : ℚ) (hc1 : 1 ≤ cpp) (hint : IsInt cpp)
    (pgs : List VPage) (p : Para) (hlen : p.text.length = p.len)
    (hch : startsChain pgs) (hlt : ∀ pg ∈ pgs, pg.start < (p.start : ℚ)) :
    InvC4 (p.start + p.len + 2)
      ⟨pgs ++ splitChunks cpp (p.start : ℚ) p.text, [], -1, 0⟩ := by
  obtain ⟨mchain, mmem⟩ :=
    splitChunksF_mono cpp hc1 hint (p.text.length + 1) (p.start : ℚ) p.text
  constructor
  · refine startsChain_append _ _ hch mchain ?_
    intro q hq r hr
    exact lt_of_lt_of_le (hlt q hq) (mmem r hr).1
  · left
    refine ⟨rfl, rfl, ?_⟩
    intro pg hpg
    rw [List.mem_append] at hpg
    have hL' : ((p.start : ℕ) : ℚ) < (((p.start + p.len + 2 : ℕ) : ℕ) : ℚ) := by
      push_cast
      linarith
    rcases hpg with hpg | hpg
    · exact lt_trans (hlt pg hpg) hL'
    · have := (mmem pg hpg).2
      have hcast : ((p.text.length : ℕ) : ℚ) = ((p.len : ℕ) : ℚ) := by exact_mod_cast hlen
      rw [hcast] at this
      push_cast
      linarith

/-- Continuation of a pagination step when the accumulator is empty and the
offset marker equals the current paragraph start. -/
lemma invC4_afterEmpty (cpp : ℚ) (hc : 100 ≤ cpp) (hint : IsInt cpp) (p : Para)
    (hlen : p.text.length = p.len) (st : PState)
    (hcE : st.content = []) (haE : st.accStart = (p.start : ℚ))
    (hch : startsChain st.pages)
    (hlt : ∀ pg ∈ st.pages, pg.start < ((p.start : ℕ) : ℚ)) :
    InvC4 (p.start + p.len + 2) (oversizeOrAppend cpp st p) := by
  by_cases hov : (p.len : ℚ) > cpp
  · rw [oversizeOrAppend_of_oversize _ _ _ hov, flushBeforeSplit_of_empty _ _ hcE]
    exact invC4_oversizeResult cpp (by linarith) hint st.pages p hlen hch hlt
  · rw [oversizeOrAppend_of_fit _ _ _ hov]
    refine ⟨hch, Or.inr ⟨?_, ⟨p.start, ?_, ?_⟩, ?_⟩⟩
    · simp [hcE]
    · exact haE
    · omega
    · intro pg hpg
      show pg.start < st.accStart
      rw [haE]
      exact hlt pg hpg

/-- Continuation of a pagination step when the accumulator still holds
content begun at an earlier paragraph. -/
lemma invC4_afterOpen (cpp : ℚ) (hc : 100 ≤ cpp) (hint : IsInt cpp) (p : Para)
    (hlen : p.text.length = p.len) (st : PState) (a : ℕ)
    (ha : st.accStart = (a : ℚ)) (haL : a < p.start) (hcN : st.content ≠ [])
    (hch : startsChain st.pages)
    (hlt : ∀ pg ∈ st.pages, pg.start < st.accStart) :
    InvC4 (p.start + p.len + 2) (oversizeOrAppend cpp st p) := by
  have hAlt : st.accStart < ((p.start : ℕ) : ℚ) := by
    rw [ha]
    exact_mod_cast haL
  by_cases hov : (p.len : ℚ) > cpp
  · rw [oversizeOrAppend_of_oversize _ _ _ hov, flushBeforeSplit_of_nonempty _ _ hcN]
    have h1 : startsChain (st.pages ++ [⟨st.content, st.accStart, (p.start : ℚ) - 1⟩]) :=
      startsChain_append_singleton _ _ hch hlt
    have h2 : ∀ pg ∈ st.pages ++ [⟨st.content, st.accStart, (p.start : ℚ) - 1⟩],
        pg.start < ((p.start : ℕ) : ℚ) :=
      mem_append_singleton_lt _ _ _ (fun pg hpg => lt_trans (hlt pg hpg) hAlt) hAlt
    exact invC4_oversizeResult cpp (by linarith) hint _ p hlen h1 h2
  · rw [oversizeOrAppend_of_fit _ _ _ hov]
    refine ⟨hch, Or.inr ⟨?_, ⟨a, ha, by omega⟩, hlt⟩⟩
    simp

/-- One pagination step preserves the monotonicity invariant, advancing the
barrier past this paragraph. -/
lemma invC4_processPara (cpp : ℚ) (hc : 100 ≤ cpp) (hint : IsInt cpp)
    (st : PState) (p : Para) (hlen : p.text.length = p.len)
    (h : InvC4 p.start st) :
    InvC4 (p.start + p.len + 2) (processPara cpp st p) := by
  obtain ⟨hch, hcase⟩ := h
  unfold processPara
  rcases hcase with ⟨hc0, ha0, hpg0⟩ | ⟨hc0, ⟨a, ha, haL⟩, hpg0⟩
  · -- empty accumulator: the two break stages cannot fire
    rw [accStartInit_of_unset st p ha0]
    rw [titleBreak_of_neg { st with accStart := (p.start : ℚ) } p (fun hcon => hcon.2 hc0)]
    rw [overflowBreak_of_neg cpp { st with accStart := (p.start : ℚ) } p
      (fun hcon => hcon.2 hc0)]
    exact invC4_afterEmpty cpp hc hint p hlen _ hc0 rfl hch hpg0
  · -- non-empty accumulator started at an earlier paragraph
    have haNe : st.accStart ≠ -1 := by
      rw [ha]
      intro heq
      have h0 : (0 : ℚ) ≤ ((a : ℕ) : ℚ) := by positivity
      rw [heq] at h0
      linarith
    rw [accStartInit_of_set st p haNe]
    by_cases hT : isTitleText p.text = true ∧ st.content ≠ []
    · rw [titleBreak_of_pos _ _ hT]
      rw [overflowBreak_of_neg _ _ _ (fun hcon => hcon.2 rfl)]
      refine invC4_afterEmpty cpp hc hint p hlen _ rfl rfl ?_ ?_
      · exact startsChain_append_singleton _ _ hch hpg0
      · have hAlt : st.accStart < ((p.start : ℕ) : ℚ) := by
          rw [ha]
          exact_mod_cast haL
        exact mem_append_singleton_lt _ _ _
          (fun pg hpg => lt_trans (hpg0 pg hpg) hAlt) hAlt
    · rw [titleBreak_of_neg _ _ hT]
      by_cases hO : ((st.count : ℚ) + (p.len : ℚ) > cpp) ∧ st.content ≠ []
      · rw [overflowBreak_of_pos _ _ _ hO]
        refine invC4_afterEmpty cpp hc hint p hlen _ rfl rfl ?_ ?_
        · exact startsChain_append_singleton _ _ hch hpg0
        · have hAlt : st.accStart < ((p.start : ℕ) : ℚ) := by
            rw [ha]
            exact_mod_cast haL
          exact mem_append_singleton_lt _ _ _
            (fun pg hpg => lt_trans (hpg0 pg hpg) hAlt) hAlt
      · rw [overflowBreak_of_neg _ _ _ hO]
        exact invC4_afterOpen cpp hc hint p hlen st a ha haL hc0 hch hpg0

lemma parasOK_mono (L L' : ℕ) (ps : List Para) (h : L ≤ L') (hok : ParasOK L' ps) :
    ParasOK L ps := by
  cases ps with
  | nil => trivial
  | cons p ps' => exact ⟨le_trans h hok.1, hok.2.1, hok.2.2⟩

lemma buildParas_ok : ∀ (pieces : List Str) (idx : ℕ), ParasOK idx (buildParas pieces idx) := by
  intro pieces
  induction pieces with
  | nil => intro idx; trivial
  | cons pc rest ih =>
    intro idx
    by_cases ht : jsTrim pc = []
    · simp only [buildParas, ht, if_true]
      exact parasOK_mono _ _ _ (by omega) (ih _)
    · simp only [buildParas, if_neg ht]
      refine ⟨le_refl idx, rfl, ?_⟩
      refine parasOK_mono _ _ _ ?_ (ih _)
      show idx + (jsTrim pc).length + 2 ≤ idx + pc.length + 2
      have := length_jsTrim_le pc
      omega

lemma invC4_runParas (cpp : ℚ) (hc : 100 ≤ cpp) (hint : IsInt cpp) :
    ∀ (paras : List Para) (L : ℕ) (st : PState),
      ParasOK L paras → InvC4 L st → ∃ L', InvC4 L' (runParas cpp st paras) := by
  intro paras
  induction paras with
  | nil => intro L st _ h; exact ⟨L, h⟩
  | cons p ps ih =>
    intro L st hok h
    obtain ⟨hle, hlen, hrest⟩ := hok
    exact ih (p.start + p.len + 2) _ hrest
      (invC4_processPara cpp hc hint st p hlen (invC4_mono L p.start st hle h))

/-- C4 (amended): whenever the effective characters-per-page budget is an
integer, the final page list has strictly increasing start offsets.  (With a
fractional budget the chunk offsets of an oversize split drift upward by the
fractional part at every round and can overtake the next paragraph's start;
see the counterexample.) -/
theorem c4_monotonic_starts (extracted : List Str) (b : ℚ)
    (hden : (max 100 b).den = 1) :
    List.Chain' (fun p q : VPage => p.start < q.start) (paginateContent extracted b) := by
  have hIsInt : IsInt (max 100 b) := ⟨(max 100 b).num, (Rat.den_eq_one_iff _).mp hden |>.symm⟩
  have hc : (100 : ℚ) ≤ max 100 b := le_max_left _ _
  obtain ⟨L', hfin⟩ := invC4_runParas (max 100 b) hc hIsInt
    (buildParas (splitNN (List.intercalate ['\n', '\n'] extracted)) 0) 0 ⟨[], [], -1, 0⟩
    (buildParas_ok _ 0) ⟨startsChain_nil, Or.inl ⟨rfl, rfl, by intro pg h; simp at h⟩⟩
  obtain ⟨hch, hcase⟩ := hfin
  haveI : IsTrans VPage (fun p q : VPage => p.start < q.start) :=
    ⟨fun _ _ _ h1 h2 => lt_trans h1 h2⟩
  simp only [paginateContent]
  set fin := runParas (max 100 b) ⟨[], [], -1, 0⟩
    (buildParas (splitNN (List.intercalate ['\n', '\n'] extracted)) 0) with hfin_def
  by_cases hl : fin.content ≠ [] ∧ fin.accStart ≠ -1
  · rw [if_pos hl]
    refine List.Chain'.sublist ?_ (List.filter_sublist _)
    rcases hcase with ⟨hempty, _, _⟩ | ⟨_, _, hlt⟩
    · exact absurd hempty hl.1
    · exact startsChain_append_singleton _ _ hch hlt
  · rw [if_neg hl]
    exact List.Chain'.sublist hch (List.filter_sublist _)

/-- C4 witness: a concrete pagination with an integer effective budget. -/
theorem c4_monotonic_starts_witness :
    List.Chain' (fun p q : VPage => p.start < q.start)
      (paginateContent ["hello world".toList] 0) :=
  c4_monotonic_starts ["hello world".toList] 0 (by decide)

lemma startsChainB_iff (l : List VPage) :
    startsChainB l = true ↔ List.Chain' (fun p q : VPage => p.start < q.start) l := by
  induction l with
  | nil => simp [startsChainB]
  | cons p rest ih =>
    cases rest with
    | nil => simp [startsChainB]
    | cons q rest' =>
      rw [List.chain'_cons, ← ih]
      simp [startsChainB]

/-- C4 (counterexample): with the reachable fractional budget `113.9`
(`charsPerLine × linesPerPage = 134` gives `134 × 0.85 = 113.9`), splitting a
1023-character paragraph advances the chunk offset by `113.9` per round while
consuming only 113 characters, so the tenth chunk starts at offset `1025.1`
while the following paragraph's page starts at offset `1025`: the page list
is not strictly increasing in start offsets. -/
theorem c4_monotonic_starts_counterexample :
    ¬ List.Chain' (fun p q : VPage => p.start < q.start)
      (paginateContent [List.replicate 1023 'a', "bbbbbbbb".toList] (mkRat 1139 10)) := by
  rw [← startsChainB_iff]
  decide

lemma scanContain_eq (pages : List VPage) :
    ∀ (o : ℚ) (i : ℕ),
      scanContain pages o i = (pages.findIdx? (containsOffset o) i).map (· + 1) := by
  induction pages with
  | nil => intro o i; rfl
  | cons pg rest ih =>
    intro o i
    by_cases h : pg.start ≤ o ∧ o ≤ pg.stop
    · simp [scanContain, containsOffset, h]
    · simp only [scanContain, if_neg h, List.findIdx?_cons]
      rw [if_neg (by simpa [containsOffset] using h)]
      exact ih o (i + 1)

lemma bestIdx_cons (o : ℚ) (pg : VPage) (rest : List VPage) :
    bestIdx o (pg :: rest) =
      match bestIdx o rest with
      | none => some (0, |pg.start - o|)
      | some (j, m) => if m < |pg.start - o| then some (j + 1, m)
                       else some (0, |pg.start - o|) := rfl

lemma scanClosest_cons (pg : VPage) (rest : List VPage) (o : ℚ) (i : ℕ) (b : Int)
    (md : Option ℚ) :
    scanClosest (pg :: rest) o i b md =
      if (match md with
          | none => true
          | some m => decide (|pg.start - o| < m)) = true then
        scanClosest rest o (i + 1) ((i : Int) + 1) (some |pg.start - o|)
      else scanClosest rest o (i + 1) b md := rfl

lemma bestIdx_cons_none (o : ℚ) (pg : VPage) (rest : List VPage)
    (h : bestIdx o rest = none) :
    bestIdx o (pg :: rest) = some (0, |pg.start - o|) := by
  rw [bestIdx_cons, h]

lemma bestIdx_cons_some (o : ℚ) (pg : VPage) (rest : List VPage) (j : ℕ) (m : ℚ)
    (h : bestIdx o rest = some (j, m)) :
    bestIdx o (pg :: rest) =
      if m < |pg.start - o| then some (j + 1, m) else some (0, |pg.start - o|) := by
  rw [bestIdx_cons, h]

lemma scanClosest_some (pages : List VPage) :
    ∀ (o : ℚ) (i : ℕ) (b : Int) (m₀ : ℚ),
      scanClosest pages o i b (some m₀) =
        match bestIdx o pages with
        | some jm => if jm.2 < m₀ then ((i : Int) + jm.1 + 1, some jm.2) else (b, some m₀)
        | none => (b, some m₀) := by
  induction pages with
  | nil => intro o i b m₀; rfl
  | cons pg rest ih =>
    intro o i b m₀
    rw [scanClosest_cons]
    by_cases hd : |pg.start - o| < m₀
    · rw [if_pos (by simpa using hd), ih]
      cases hrest : bestIdx o rest with
      | none =>
        rw [bestIdx_cons_none o pg rest hrest]
        show ((i : Int) + 1, some |pg.start - o|) =
          if |pg.start - o| < m₀ then ((i : Int) + ((0 : ℕ) : Int) + 1, some |pg.start - o|)
          else (b, some m₀)
        rw [if_pos hd]
        norm_num
      | some jm =>
        obtain ⟨j, m⟩ := jm
        rw [bestIdx_cons_some o pg rest j m hrest]
        by_cases hmd : m < |pg.start - o|
        · rw [if_pos hmd]
          show (if m < |pg.start - o| then (((i + 1 : ℕ) : Int) + (j : Int) + 1, some m)
              else ((i : Int) + 1, some |pg.start - o|)) =
            if m < m₀ then ((i : Int) + ((j + 1 : ℕ) : Int) + 1, some m) else (b, some m₀)
          rw [if_pos hmd, if_pos (lt_trans hmd hd)]
          simp only [Prod.mk.injEq, and_true]
          push_cast
          ring
        · rw [if_neg hmd]
          show (if m < |pg.start - o| then (((i + 1 : ℕ) : Int) + (j : Int) + 1, some m)
              else ((i : Int) + 1, some |pg.start - o|)) =
            if |pg.start - o| < m₀ then ((i : Int) + ((0 : ℕ) : Int) + 1, some |pg.start - o|)
            else (b, some m₀)
          rw [if_neg hmd, if_pos hd]
          norm_num
    · rw [if_neg (by simpa using hd), ih]
      cases hrest : bestIdx o rest with
      | none =>
        rw [bestIdx_cons_none o pg rest hrest]
        show (b, some m₀) =
          if |pg.start - o| < m₀ then ((i : Int) + ((0 : ℕ) : Int) + 1, some |pg.start - o|)
          else (b, some m₀)
        rw [if_neg hd]
      | some jm =>
        obtain ⟨j, m⟩ := jm
        rw [bestIdx_cons_some o pg rest j m hrest]
        by_cases hmd : m < |pg.start - o|
        · rw [if_pos hmd]
          show (if m < m₀ then (((i + 1 : ℕ) : Int) + (j : Int) + 1, some m) else (b, some m₀)) =
            if m < m₀ then ((i : Int) + ((j + 1 : ℕ) : Int) + 1, some m) else (b, some m₀)
          by_cases hmm : m < m₀
          · rw [if_pos hmm, if_pos hmm]
            simp only [Prod.mk.injEq, and_true]
            push_cast
            ring
          · rw [if_neg hmm, if_neg hmm]
        · rw [if_neg hmd]
          show (if m < m₀ then (((i + 1 : ℕ) : Int) + (j : Int) + 1, some m) else (b, some m₀)) =
            if |pg.start - o| < m₀ then ((i : Int) + ((0 : ℕ) : Int) + 1, some |pg.start - o|)
            else (b, some m₀)
          have h2 : ¬ m < m₀ := not_lt.mpr (le_trans (not_lt.mp hd) (not_lt.mp hmd))
          rw [if_neg h2, if_neg hd]

lemma scanClosest_none (pages : List VPage) (o : ℚ) (i : ℕ) (b : Int) :
    scanClosest pages o i b none =
      match bestIdx o pages with
      | some jm => ((i : Int) + jm.1 + 1, some jm.2)
      | none => (b, none) := by
  cases pages with
  | nil => rfl
  | cons pg rest =>
    rw [scanClosest_cons]
    rw [if_pos rfl, scanClosest_some]
    cases hrest : bestIdx o rest with
    | none =>
      rw [bestIdx_cons_none o pg rest hrest]
      show ((i : Int) + 1, some |pg.start - o|) =
        ((i : Int) + ((0 : ℕ) : Int) + 1, some |pg.start - o|)
      norm_num
    | some jm =>
      obtain ⟨j, m⟩ := jm
      rw [bestIdx_cons_some o pg rest j m hrest]
      by_cases hmd : m < |pg.start - o|
      · rw [if_pos hmd]
        show (if m < |pg.start - o| then (((i + 1 : ℕ) : Int) + (j : Int) + 1, some m)
            else ((i : Int) + 1, some |pg.start - o|)) =
          ((i : Int) + ((j + 1 : ℕ) : Int) + 1, some m)
        rw [if_pos hmd]
        simp only [Prod.mk.injEq, and_true]
        push_cast
        ring
      · rw [if_neg hmd]
        show (if m < |pg.start - o| then (((i + 1 : ℕ) : Int) + (j : Int) + 1, some m)
            else ((i : Int) + 1, some |pg.start - o|)) =
          ((i : Int) + ((0 : ℕ) : Int) + 1, some |pg.start - o|)
        rw [if_neg hmd]
        norm_num

lemma bestIdx_none_iff (o : ℚ) (pages : List VPage) :
    bestIdx o pages = none ↔ pages = [] := by
  cases pages with
  | nil => simp [bestIdx]
  | cons pg rest =>
    simp only [bestIdx]
    cases bestIdx o rest with
    | none => simp
    | some jm =>
      obtain ⟨j, m⟩ := jm
      simp only
      constructor
      · intro h
        split at h <;> simp_all
      · intro h
        simp at h

lemma bestIdx_spec (o : ℚ) : ∀ (pages : List VPage) (j : ℕ) (m : ℚ),
    bestIdx o pages = some (j, m) →
    ∃ hj : j < pages.length,
      m = |(pages.get ⟨j, hj⟩).start - o| ∧
      (∀ (k : ℕ) (hk : k < pages.length), m ≤ |(pages.get ⟨k, hk⟩).start - o|) ∧
      (∀ (k : ℕ) (hk : k < pages.length), k < j → m < |(pages.get ⟨k, hk⟩).start - o|) := by
  intro pages
  induction pages with
  | nil =>
    intro j m h
    simp [bestIdx] at h
  | cons pg rest ih =>
    intro j m h
    cases hrest : bestIdx o rest with
    | none =>
      rw [bestIdx_cons_none o pg rest hrest] at h
      have hrestnil : rest = [] := (bestIdx_none_iff o rest).mp hrest
      subst hrestnil
      simp only [Option.some.injEq, Prod.mk.injEq] at h
      obtain ⟨hj0, hm0⟩ := h
      subst hj0
      refine ⟨by simp, hm0.symm, ?_, ?_⟩
      · intro k hk
        cases k with
        | zero => exact le_of_eq hm0.symm
        | succ k' => simp at hk
      · intro k hk hkj
        omega
    | some jm =>
      obtain ⟨j', m'⟩ := jm
      rw [bestIdx_cons_some o pg rest j' m' hrest] at h
      obtain ⟨hj', hm', hmin', hstrict'⟩ := ih j' m' hrest
      by_cases hmd : m' < |pg.start - o|
      · rw [if_pos hmd] at h
        simp only [Option.some.injEq, Prod.mk.injEq] at h
        obtain ⟨hj1, hm1⟩ := h
        subst hm1
        subst hj1
        refine ⟨by simp only [List.length_cons]; omega, hm', ?_, ?_⟩
        · intro k hk
          simp only [List.length_cons] at hk
          cases k with
          | zero => exact le_of_lt hmd
          | succ k' => exact hmin' k' (by omega)
        · intro k hk hkj
          simp only [List.length_cons] at hk
          cases k with
          | zero => exact hmd
          | succ k' => exact hstrict' k' (by omega) (by omega)
      · rw [if_neg hmd] at h
        simp only [Option.some.injEq, Prod.mk.injEq] at h
        obtain ⟨hj1, hm1⟩ := h
        subst hm1
        subst hj1
        refine ⟨by simp only [List.length_cons]; omega, rfl, ?_, ?_⟩
        · intro k hk
          simp only [List.length_cons] at hk
          cases k with
          | zero => exact le_refl _
          | succ k' =>
            have h1 : |pg.start - o| ≤ m' := not_lt.mp hmd
            exact le_trans h1 (hmin' k' (by omega))
        · intro k hk hkj
          omega

/-- C5: the offset locator agrees, for every page list and every
non-negative anchor offset, with the spec's contract `locateSpec` — first
page whose `[start, end]` range contains the offset, else the page whose
start is numerically closest (ties to the earlier index), accepted only when
the distance is below the 1000-character tolerance, else NotFound (`-1`) —
and the closest-page choice `bestIdx` is certified: it returns the least
distance together with the earliest index attaining it.  Determinism holds
because the locator is a pure function of its arguments. -/
theorem c5_locator_contract :
    (∀ (pages : List VPage) (o : ℚ), 0 ≤ o →
        findPageForOffset pages (some o) = locateSpec pages o) ∧
    (∀ (pages : List VPage) (o : ℚ) (j : ℕ) (m : ℚ), bestIdx o pages = some (j, m) →
        ∃ hj : j < pages.length,
          m = |(pages.get ⟨j, hj⟩).start - o| ∧
          (∀ (k : ℕ) (hk : k < pages.length), m ≤ |(pages.get ⟨k, hk⟩).start - o|) ∧
          (∀ (k : ℕ) (hk : k < pages.length), k < j → m < |(pages.get ⟨k, hk⟩).start - o|)) := by
  constructor
  · intro pages o ho
    have hfp : findPageForOffset pages (some o) =
        if o < 0 then -1
        else
          match scanContain pages o 0 with
          | some r => (r : Int)
          | none =>
            match (scanClosest pages o 0 (-1) none).2 with
            | some m => if m < 1000 then (scanClosest pages o 0 (-1) none).1 else -1
            | none => -1 := rfl
    rw [hfp, if_neg (not_lt.mpr ho)]
    unfold locateSpec
    cases hfi : pages.findIdx? (containsOffset o) with
    | some j =>
      have hsc : scanContain pages o 0 = some (j + 1) := by
        rw [scanContain_eq, hfi]
        rfl
      rw [hsc]
      show ((j + 1 : ℕ) : Int) = (j : Int) + 1
      push_cast
      ring
    | none =>
      have hsc : scanContain pages o 0 = none := by
        rw [scanContain_eq, hfi]
        rfl
      rw [hsc]
      cases hb : bestIdx o pages with
      | none =>
        have hscl : scanClosest pages o 0 (-1) none = ((-1 : Int), none) := by
          rw [scanClosest_none, hb]
        rw [hscl]
      | some jm =>
        obtain ⟨j, m⟩ := jm
        have hscl : scanClosest pages o 0 (-1) none = (((0 : ℕ) : Int) + j + 1, some m) := by
          rw [scanClosest_none, hb]
        rw [hscl]
        show (if m < 1000 then ((0 : ℕ) : Int) + (j : Int) + 1 else -1) =
          if m < 1000 then (j : Int) + 1 else -1
        by_cases hm : m < 1000
        · rw [if_pos hm, if_pos hm]
          push_cast
          ring
        · rw [if_neg hm, if_neg hm]
  · intro pages o j m h
    exact bestIdx_spec o pages j m h

/-- C5 witness: locator and spec agree on a concrete page list and offset. -/
theorem c5_locator_contract_witness :
    findPageForOffset [⟨["ab".toList], 0, 10⟩, ⟨["cd".toList], 11, 20⟩] (some 5) =
      locateSpec [⟨["ab".toList], 0, 10⟩, ⟨["cd".toList], 11, 20⟩] 5 :=
  (c5_locator_contract).1 [⟨["ab".toList], 0, 10⟩, ⟨["cd".toList], 11, 20⟩] 5 (by norm_num)
